import Mathlib

/-!
Verification of the StringZilla batched pairwise alignment engine.

This file embeds the data model and algorithms of the StringZilla similarity
engine (Levenshtein edit distance, Needleman-Wunsch global alignment under
uniform / affine-gap / substitution-matrix cost models, bounded edit distance,
the UTF-8 codepoint adapter, and the batch scheduler with its device scopes)
as executable Lean definitions, and proves the specified properties about them.

Byte values and Unicode codepoints are represented as natural numbers, and
sequences as `List ℕ`.  Scores are integers; distances are naturals.

The reference dynamic program `distanceMatrix` is translated from the
repository's NumPy baseline (`scripts/levenshtein_baseline.py` and
`baseline_levenshtein_distance` in `scripts/test_stringzillas.py`): the
`(len a + 1) × (len b + 1)` matrix with base cases `[i][0] = i`,
`[0][j] = j` and the usual deletion / insertion / substitution minimum.

The engine-side kernels (`rowLevG`, `boundedLev`, `gotohDist`, `gotohNW`,
the scheduler and the device scopes) are modelled from the specification,
since the production kernels are implemented in the C/CUDA core which is not
part of the Python sources; where the repository's own test-suite pins the
observable behaviour at concrete inputs (for instance the value returned by
the bounded edit distance once the bound is exceeded, or the acceptance of
positive gap costs by the distance engines), the model follows the tests.
-/

/-! The classic Levenshtein dynamic program, from the source baseline. -/

/-- Cell `(i, j)` of the classic Levenshtein dynamic-programming matrix,
translated from `baseline_levenshtein_distance` in
`scripts/test_stringzillas.py` (equivalently `scripts/levenshtein_baseline.py`):
`matrix[i][0] = i`, `matrix[0][j] = j`, and interior cells take the minimum of
deletion (`matrix[i-1][j] + 1`), insertion (`matrix[i][j-1] + 1`) and
substitution (`matrix[i-1][j-1] + cost`), where the cost is `0` on equal
elements and `1` otherwise. -/
def distanceMatrix (a b : List ℕ) : ℕ → ℕ → ℕ
  | 0, j => j
  | i + 1, 0 => i + 1
  | i + 1, j + 1 =>
      min (distanceMatrix a b i (j + 1) + 1)
        (min (distanceMatrix a b (i + 1) j + 1)
          (distanceMatrix a b i j + if a.getD i 0 = b.getD j 0 then 0 else 1))
termination_by i j => (i, j)

/-- The Levenshtein edit distance of two byte strings: the bottom-right cell
of the classic dynamic program, as returned by the source baseline. -/
def baselineLevenshteinDistance (a b : List ℕ) : ℕ :=
  distanceMatrix a b a.length b.length

/-!
The row-wise engine kernel.

Modelled from the spec: the DP Kernel computes the edit distance with a
"classic row-wise ... dynamic program", materializing one row at a time,
under the uniform cost model `Uniform { gap_cost }` whose substitution cost
is `0` for equal elements and `gap_cost` otherwise.  The production kernel
lives in the C core and is not among the Python sources.
-/

/-- One step of the row-wise kernel: given the current character `x` of the
first string, the remainder of the second string, the remaining cells
of the previous row (starting one past the current column), the
previous row's cell `d` in the current column (the diagonal) and the freshly
computed cell `l` of the new row (the left neighbour), produce the remaining
cells of the new row. -/
def nextRowGo (g x : ℕ) : List ℕ → List ℕ → ℕ → ℕ → List ℕ
  | [], _, _, _ => []
  | _ :: _, [], _, _ => []
  | y :: ys, u :: us, d, l =>
      let v := min (u + g) (min (l + g) (d + if x = y then 0 else g))
      v :: nextRowGo g x ys us u v

/-- Compute the next row of the dynamic program from the previous row `prev`,
for character `x` of the first string against the second string `b`. -/
def nextRow (g x : ℕ) (prev : List ℕ) (b : List ℕ) : List ℕ :=
  match prev with
  | [] => []
  | p :: ps => (p + g) :: nextRowGo g x b ps p (p + g)

/-- The initial row of the dynamic program: `[0, g, 2*g, ..., len(b)*g]`. -/
def initRow (g : ℕ) (b : List ℕ) : List ℕ :=
  (List.range (b.length + 1)).map (fun j => j * g)

/-- The row-wise uniform-cost Levenshtein kernel: fold `nextRow` over the
first string starting from `initRow` and read off the last cell. -/
def rowLevG (g : ℕ) (a b : List ℕ) : ℕ :=
  (a.foldl (fun r x => nextRow g x r b) (initRow g b)).getLastD 0

/-- Row `t` of the classic dynamic program, as a list of `len b + 1` cells
(the specification row against which the row-wise kernel is verified). -/
def rowSpec (a b : List ℕ) (t : ℕ) : List ℕ :=
  (List.range (b.length + 1)).map (distanceMatrix a b t)

/-!
The bounded kernel.

Modelled from the spec: with a bound `k` the kernel tracks the minimum value
of each row and terminates early once the distance is provably unreachable
within the bound.  The value reported once the bound is exceeded follows the
repository's own tests (`test_unit_globals` in `scripts/test.py` asserts
`edit_distance("abababab", "aaaaaaaa", bound=2) == 2` for a pair whose true
distance is `4`): the kernel returns the bound itself, clamping the result
to at most `k`.
-/

/-- The minimum of a list of naturals (`0` for the empty list). -/
def minD : List ℕ → ℕ
  | [] => 0
  | x :: xs => xs.foldl min x

/-- Run the bounded row-wise kernel: advance one row per remaining character;
once the row minimum exceeds the bound, stop early and report the bound;
otherwise clamp the final cell to the bound. -/
def boundedGo (b : List ℕ) (k : ℕ) : List ℕ → List ℕ → ℕ
  | [], row => min (row.getLastD 0) k
  | x :: xs, row =>
      let row' := nextRow 1 x row b
      if k < minD row' then k else boundedGo b k xs row'

/-- The bounded single-pair edit distance under unit costs. -/
def boundedLev (a b : List ℕ) (k : ℕ) : ℕ :=
  boundedGo b k a (initRow 1 b)

/-! Affine-gap engines (Gotoh's algorithm), modelled from the spec. -/

/-- Gotoh's three-state affine-gap dynamic program for cost minimization.
Cell `(i, j)` carries `(D, B, C)`: `D` the overall minimal cost, `B` the
minimal cost of alignments ending in a gap of the second string (a deleted
run of the first), `C` symmetrically for the first.  A gap of length `L`
costs `open + (L-1) * extend`; borders are initialized to the affine gap
costs per the spec.  The second and third components on borders where the
state is unreachable are unused placeholders, guarded by the `i = 0` /
`j = 0` tests in the interior recurrence. -/
def gotohDist (o e m : ℕ) (a b : List ℕ) : ℕ → ℕ → ℕ × ℕ × ℕ
  | 0, 0 => (0, 0, 0)
  | i + 1, 0 => (o + i * e, o + i * e, 0)
  | 0, j + 1 => (o + j * e, 0, o + j * e)
  | i + 1, j + 1 =>
      let dd := (gotohDist o e m a b i j).1
      let up := gotohDist o e m a b i (j + 1)
      let lf := gotohDist o e m a b (i + 1) j
      let gB := if i = 0 then up.1 + o else min (up.1 + o) (up.2.1 + e)
      let gC := if j = 0 then lf.1 + o else min (lf.1 + o) (lf.2.2 + e)
      let gA := dd + (if a.getD i 0 = b.getD j 0 then 0 else m)
      (min gA (min gB gC), gB, gC)
termination_by i j => (i, j)

/-- The affine-gap edit distance with gap-open cost `o`, gap-extend cost `e`
and mismatch cost `m`. -/
def affineDist (o e m : ℕ) (a b : List ℕ) : ℕ :=
  (gotohDist o e m a b a.length b.length).1

/-- Gotoh's three-state affine-gap dynamic program for score maximization
(Needleman-Wunsch global alignment with a substitution function `sub` and
affine gap penalties `o`/`e`), mirroring `gotohDist` with `max` in place of
`min`. -/
def gotohNW (sub : ℕ → ℕ → ℤ) (o e : ℤ) (a b : List ℕ) : ℕ → ℕ → ℤ × ℤ × ℤ
  | 0, 0 => (0, 0, 0)
  | i + 1, 0 => (o + (i : ℤ) * e, o + (i : ℤ) * e, 0)
  | 0, j + 1 => (o + (j : ℤ) * e, 0, o + (j : ℤ) * e)
  | i + 1, j + 1 =>
      let dd := (gotohNW sub o e a b i j).1
      let up := gotohNW sub o e a b i (j + 1)
      let lf := gotohNW sub o e a b (i + 1) j
      let gB := if i = 0 then up.1 + o else max (up.1 + o) (up.2.1 + e)
      let gC := if j = 0 then lf.1 + o else max (lf.1 + o) (lf.2.2 + e)
      let gA := dd + sub (a.getD i 0) (b.getD j 0)
      (max gA (max gB gC), gB, gC)
termination_by i j => (i, j)

/-- The Needleman-Wunsch global alignment score. -/
def nwScore (sub : ℕ → ℕ → ℤ) (o e : ℤ) (a b : List ℕ) : ℤ :=
  (gotohNW sub o e a b a.length b.length).1

/-- The substitution matrix built by the repository's tests: `0` on the
diagonal and `-1` everywhere else. -/
def subUnit (x y : ℕ) : ℤ := if x = y then 0 else -1

/-! The codepoint adapter. -/

/-- Modelled from the spec: the standard UTF-8 encoding of one Unicode
codepoint, as the list of its encoded byte values (1 to 4 bytes).  The
Codepoint Adapter decodes UTF-8 input into codepoints; this encoder is its
inverse, used to relate the byte-oriented and codepoint-oriented engines. -/
def utf8EncodeChar (c : ℕ) : List ℕ :=
  if c < 128 then [c]
  else if c < 2048 then [192 + c / 64, 128 + c % 64]
  else if c < 65536 then [224 + c / 4096, 128 + c / 64 % 64, 128 + c % 64]
  else [240 + c / 262144, 128 + c / 4096 % 64, 128 + c / 64 % 64, 128 + c % 64]

/-- The UTF-8 encoding of a sequence of codepoints as a byte sequence. -/
def utf8Encode (s : List ℕ) : List ℕ :=
  (s.map utf8EncodeChar).flatten

/-! The batch scheduler and device scopes, modelled from the spec. -/

/-- The result of pair `i` of the two batches: the kernel `f` applied to the
`i`-th sequences of each batch. -/
def pairResult (f : List ℕ → List ℕ → ℤ) (xs ys : List (List ℕ)) (i : ℕ) : ℤ :=
  f (xs.getD i []) (ys.getD i [])

/-- The serial scheduler: one kernel invocation per index, in order. -/
def serialCompute (f : List ℕ → List ℕ → ℤ) (xs ys : List (List ℕ)) : List ℤ :=
  (xs.zip ys).map fun p => f p.1 p.2

/-- The GPU scheduler: a single fused launch computing every pair of the
batch with the shared cost model. -/
def gpuCompute (f : List ℕ → List ℕ → ℤ) (xs ys : List (List ℕ)) : List ℤ :=
  (List.range (min xs.length ys.length)).map (pairResult f xs ys)

/-- Per-worker writes into the pre-allocated result array: each index `i` of
`order` stores the result of pair `i` into slot `i`. -/
def scatterWrite (f : List ℕ → List ℕ → ℤ) (xs ys : List (List ℕ))
    (order : List ℕ) : List ℤ :=
  order.foldl (fun acc i => acc.set i (pairResult f xs ys i))
    (List.replicate (min xs.length ys.length) 0)

/-- The interleaved partition of `n` jobs over `w` workers: worker `k` owns
the indices congruent to `k` modulo `w`; the full write order is the
concatenation of the workers' assignments. -/
def interleaveOrder (w n : ℕ) : List ℕ :=
  ((List.range w).map (fun k => (List.range n).filter (fun i => i % w == k))).flatten

/-- The multi-core scheduler with `w` workers: every worker writes the
results of its assigned indices into its disjoint slots of the result
array. -/
def multiCompute (f : List ℕ → List ℕ → ℤ) (xs ys : List (List ℕ)) (w : ℕ) : List ℤ :=
  scatterWrite f xs ys (interleaveOrder w (min xs.length ys.length))

/-- A resolved execution context: serial, `w`-way multi-core, or one GPU
device. -/
inductive DeviceScope where
  | serial : DeviceScope
  | multiCore (w : ℕ) : DeviceScope
  | gpu (d : ℕ) : DeviceScope

/-- Dispatch a batched computation to the scheduler selected by the device
scope. -/
def scopedCompute (scope : DeviceScope) (f : List ℕ → List ℕ → ℤ)
    (xs ys : List (List ℕ)) : List ℤ :=
  match scope with
  | .serial => serialCompute f xs ys
  | .multiCore w => multiCompute f xs ys w
  | .gpu _ => gpuCompute f xs ys

/-! Engine facade, device-scope and engine construction. -/

/-- The batch-compute entry point: validates that the two batches have equal
element counts before any pairwise computation, then runs the scheduler;
on mismatch the whole call fails and no result array is produced.  Modelled
from the spec and from `test_parameter_validation` in
`scripts/test_stringzillas.py`. -/
def engineCompute (f : List ℕ → List ℕ → ℤ) (xs ys : List (List ℕ)) :
    Except String (List ℤ) :=
  if xs.length = ys.length then Except.ok (serialCompute f xs ys)
  else Except.error "mismatched batch lengths"

/-- The runtime environment a device scope is resolved against: the number
of CPU cores and the number of available GPU devices. -/
structure SystemInfo where
  numCores : ℕ
  gpuCount : ℕ

/-- A requested execution context, before validation. -/
inductive ScopeRequest where
  | serial : ScopeRequest
  | multiCore (w : ℕ) : ScopeRequest
  | gpu (d : ℕ) : ScopeRequest

/-- Device-scope construction, modelled from the spec (§4.4) and
`test_device_scope` in `scripts/test_stringzillas.py`: `Serial` always
succeeds; `MultiCore{0}` resolves to all available cores; `MultiCore{1}`
normalizes to the serial scope; `Gpu{d}` validates the device at
construction time and fails immediately when no such GPU exists. -/
def newDeviceScope (sys : SystemInfo) : ScopeRequest → Except String DeviceScope
  | .serial => Except.ok .serial
  | .multiCore 0 => Except.ok (.multiCore sys.numCores)
  | .multiCore 1 => Except.ok .serial
  | .multiCore w => Except.ok (.multiCore w)
  | .gpu d =>
      if d < sys.gpuCount then Except.ok (.gpu d)
      else Except.error "gpu device unavailable"

/-- Configuration of a Levenshtein distance engine with affine gap costs,
as constructed by `szs.LevenshteinDistances(open=..., extend=..., mismatch=...)`. -/
structure LevEngineConfig where
  gapOpen : ℕ
  gapExtend : ℕ
  mismatch : ℕ

/-- Engine construction for the affine-gap Levenshtein distance engine.
Modelled from the spec and pinned by
`test_levenshtein_distances_with_custom_gaps` in
`scripts/test_stringzillas.py`, which successfully constructs the engine
with the positive costs `open=3, extend=2, mismatch=4` and checks the
distances it produces: the integer cost parameters are accepted as given
(parameter validation is a type check, not a sign check). -/
def mkLevenshteinDistances (o e m : ℕ) : Except String LevEngineConfig :=
  Except.ok ⟨o, e, m⟩

/-- Run a constructed Levenshtein distance engine on one pair. -/
def runLevenshteinDistances (cfg : LevEngineConfig) (a b : List ℕ) : ℕ :=
  affineDist cfg.gapOpen cfg.gapExtend cfg.mismatch a b

/-! Basic facts about the classic dynamic program. -/

lemma distanceMatrix_zero_left (a b : List ℕ) (j : ℕ) : distanceMatrix a b 0 j = j := by
  simp [distanceMatrix]

lemma distanceMatrix_zero_right (a b : List ℕ) (i : ℕ) : distanceMatrix a b i 0 = i := by
  cases i <;> simp [distanceMatrix]

lemma distanceMatrix_succ_succ (a b : List ℕ) (i j : ℕ) :
    distanceMatrix a b (i + 1) (j + 1) =
      min (distanceMatrix a b i (j + 1) + 1)
        (min (distanceMatrix a b (i + 1) j + 1)
          (distanceMatrix a b i j + if a.getD i 0 = b.getD j 0 then 0 else 1)) := by
  rw [distanceMatrix]

lemma getLastD_map_range (f : ℕ → ℕ) (n d : ℕ) :
    ((List.range (n + 1)).map f).getLastD d = f n := by
  rw [List.range_succ, List.map_append]
  simp

/-! The row-wise kernel computes the rows of the classic dynamic program. -/

lemma nextRowGo_spec (a b : List ℕ) (t : ℕ) :
    ∀ (n j : ℕ), j + n = b.length →
      nextRowGo 1 (a.getD t 0) (b.drop j)
          ((List.range' (j + 1) n).map (distanceMatrix a b t))
          (distanceMatrix a b t j) (distanceMatrix a b (t + 1) j)
        = (List.range' (j + 1) n).map (distanceMatrix a b (t + 1)) := by
  intro n
  induction n with
  | zero =>
    intro j h
    have hd : b.drop j = [] := List.drop_eq_nil_iff.mpr (by omega)
    simp [hd, nextRowGo]
  | succ n ih =>
    intro j h
    have hj : j < b.length := by omega
    have hdrop : b.drop j = b[j] :: b.drop (j + 1) := List.drop_eq_getElem_cons hj
    have hgd : b.getD j 0 = b[j] := List.getD_eq_getElem b 0 hj
    rw [hdrop, List.range'_succ, List.map_cons, List.map_cons, nextRowGo]
    have hcell : min (distanceMatrix a b t (j + 1) + 1)
        (min (distanceMatrix a b (t + 1) j + 1)
          (distanceMatrix a b t j + if a.getD t 0 = b[j] then 0 else 1))
        = distanceMatrix a b (t + 1) (j + 1) := by
      rw [distanceMatrix_succ_succ, hgd]
    rw [hcell]
    have := ih (j + 1) (by omega)
    rw [this]

lemma nextRow_spec (a b : List ℕ) (t : ℕ) :
    nextRow 1 (a.getD t 0) (rowSpec a b t) b = rowSpec a b (t + 1) := by
  unfold rowSpec
  rw [List.range_eq_range', List.range'_succ, List.map_cons, List.map_cons, nextRow]
  rw [distanceMatrix_zero_right a b t, distanceMatrix_zero_right a b (t + 1)]
  have h := nextRowGo_spec a b t b.length 0 (by omega)
  simp only [List.drop_zero, distanceMatrix_zero_right, Nat.zero_add] at h
  rw [h]

lemma foldl_nextRow_spec (a b : List ℕ) :
    ∀ (xs : List ℕ) (t : ℕ), xs = a.drop t → t ≤ a.length →
      xs.foldl (fun r x => nextRow 1 x r b) (rowSpec a b t) = rowSpec a b a.length := by
  intro xs
  induction xs with
  | nil =>
    intro t h hle
    have : a.length ≤ t := List.drop_eq_nil_iff.mp h.symm
    have ht : t = a.length := by omega
    rw [List.foldl_nil, ht]
  | cons x xs ih =>
    intro t h hle
    have ht : t < a.length := by
      by_contra hc
      rw [List.drop_eq_nil_iff.mpr (by omega)] at h
      exact List.cons_ne_nil x xs h
    have hdrop : a.drop t = a[t] :: a.drop (t + 1) := List.drop_eq_getElem_cons ht
    rw [hdrop] at h
    obtain ⟨hx, hxs⟩ : x = a[t] ∧ xs = a.drop (t + 1) := by
      constructor <;> [exact (List.cons.injEq .. ▸ h).1; exact (List.cons.injEq .. ▸ h).2]
    rw [List.foldl_cons, hx, ← List.getD_eq_getElem a 0 ht, nextRow_spec]
    exact ih (t + 1) hxs ht

lemma initRow_one_eq_rowSpec (a b : List ℕ) : initRow 1 b = rowSpec a b 0 := by
  unfold initRow rowSpec
  apply List.map_congr_left
  intro j _
  rw [distanceMatrix_zero_left, Nat.mul_one]

lemma rowLevG_one_eq (a b : List ℕ) :
    rowLevG 1 a b = baselineLevenshteinDistance a b := by
  unfold rowLevG baselineLevenshteinDistance
  rw [initRow_one_eq_rowSpec a b,
    foldl_nextRow_spec a b a 0 (by simp) (by omega)]
  unfold rowSpec
  rw [getLastD_map_range]

/-! Facts about list minima, needed for the early-exit argument. -/

lemma foldl_min_le_init (xs : List ℕ) : ∀ acc : ℕ, xs.foldl min acc ≤ acc := by
  induction xs with
  | nil => intro acc; simp
  | cons x xs ih =>
    intro acc
    rw [List.foldl_cons]
    exact le_trans (ih (min acc x)) (min_le_left acc x)

lemma foldl_min_le_mem (xs : List ℕ) :
    ∀ (acc x : ℕ), x ∈ xs → xs.foldl min acc ≤ x := by
  induction xs with
  | nil => intro acc x hx; cases hx
  | cons y ys ih =>
    intro acc x hx
    rw [List.foldl_cons]
    rcases List.mem_cons.mp hx with h | h
    · subst h
      exact le_trans (foldl_min_le_init ys (min acc x)) (min_le_right acc x)
    · exact ih (min acc y) x h

lemma foldl_min_mem (xs : List ℕ) :
    ∀ acc : ℕ, xs.foldl min acc = acc ∨ xs.foldl min acc ∈ xs := by
  induction xs with
  | nil => intro acc; left; rfl
  | cons y ys ih =>
    intro acc
    rw [List.foldl_cons]
    rcases ih (min acc y) with h | h
    · rcases le_total acc y with hle | hle
      · left; rw [h, min_eq_left hle]
      · right; rw [h, min_eq_right hle]; exact List.mem_cons_self y ys
    · right; exact List.mem_cons_of_mem y h

lemma minD_le_of_mem {l : List ℕ} {x : ℕ} (hx : x ∈ l) : minD l ≤ x := by
  cases l with
  | nil => cases hx
  | cons y ys =>
    rcases List.mem_cons.mp hx with h | h
    · subst h; exact foldl_min_le_init ys x
    · exact foldl_min_le_mem ys y x h

lemma minD_mem {l : List ℕ} (hl : l ≠ []) : minD l ∈ l := by
  cases l with
  | nil => exact absurd rfl hl
  | cons y ys =>
    rcases foldl_min_mem ys y with h | h
    · rw [show minD (y :: ys) = ys.foldl min y from rfl, h]
      exact List.mem_cons_self y ys
    · exact List.mem_cons_of_mem y h

/-! The row minimum is a lower bound for the final distance. -/

lemma cell_mem_rowSpec (a b : List ℕ) (t j : ℕ) (hj : j ≤ b.length) :
    distanceMatrix a b t j ∈ rowSpec a b t := by
  unfold rowSpec
  exact List.mem_map_of_mem _ (List.mem_range.mpr (by omega))

lemma minD_le_cell (a b : List ℕ) (t j : ℕ) (hj : j ≤ b.length) :
    minD (rowSpec a b t) ≤ distanceMatrix a b t j :=
  minD_le_of_mem (cell_mem_rowSpec a b t j hj)

lemma minD_le_cell_next (a b : List ℕ) (t : ℕ) :
    ∀ j, j ≤ b.length → minD (rowSpec a b t) ≤ distanceMatrix a b (t + 1) j := by
  intro j
  induction j with
  | zero =>
    intro _
    rw [distanceMatrix_zero_right]
    exact le_trans (minD_le_cell a b t 0 (by omega))
      (by rw [distanceMatrix_zero_right]; omega)
  | succ j ih =>
    intro hj
    rw [distanceMatrix_succ_succ]
    have h1 := minD_le_cell a b t (j + 1) hj
    have h2 := ih (by omega)
    have h3 := minD_le_cell a b t j (by omega)
    omega

lemma minD_rowSpec_mono (a b : List ℕ) (t : ℕ) :
    minD (rowSpec a b t) ≤ minD (rowSpec a b (t + 1)) := by
  have hne : rowSpec a b (t + 1) ≠ [] := by
    unfold rowSpec
    simp
  obtain ⟨j, hj, hval⟩ := List.mem_map.mp (minD_mem hne)
  have hval' : distanceMatrix a b (t + 1) j = minD (rowSpec a b (t + 1)) := hval
  rw [← hval']
  exact minD_le_cell_next a b t j (by
    have := List.mem_range.mp hj
    omega)

lemma minD_le_lev (a b : List ℕ) (t : ℕ) (ht : t ≤ a.length) :
    minD (rowSpec a b t) ≤ baselineLevenshteinDistance a b := by
  have step : ∀ s : ℕ, minD (rowSpec a b t) ≤ minD (rowSpec a b (t + s)) := by
    intro s
    induction s with
    | zero => simp
    | succ s ih => exact le_trans ih (minD_rowSpec_mono a b (t + s))
  have h1 := step (a.length - t)
  have h2 : t + (a.length - t) = a.length := by omega
  rw [h2] at h1
  exact le_trans h1 (minD_le_cell a b a.length b.length (le_refl _))

/-! Correctness of the bounded kernel. -/

lemma boundedGo_spec (a b : List ℕ) (k : ℕ) :
    ∀ (xs : List ℕ) (t : ℕ), xs = a.drop t → t ≤ a.length →
      boundedGo b k xs (rowSpec a b t) = min (baselineLevenshteinDistance a b) k := by
  intro xs
  induction xs with
  | nil =>
    intro t h hle
    have : a.length ≤ t := List.drop_eq_nil_iff.mp h.symm
    have ht : t = a.length := by omega
    subst ht
    rw [boundedGo]
    unfold rowSpec
    rw [getLastD_map_range]
    rfl
  | cons x xs ih =>
    intro t h hle
    have ht : t < a.length := by
      by_contra hc
      rw [List.drop_eq_nil_iff.mpr (by omega)] at h
      exact List.cons_ne_nil x xs h
    have hdrop : a.drop t = a[t] :: a.drop (t + 1) := List.drop_eq_getElem_cons ht
    rw [hdrop] at h
    have hx : x = a[t] := (List.cons.injEq .. ▸ h).1
    have hxs : xs = a.drop (t + 1) := (List.cons.injEq .. ▸ h).2
    rw [boundedGo]
    rw [hx, ← List.getD_eq_getElem a 0 ht, nextRow_spec]
    by_cases hk : k < minD (rowSpec a b (t + 1))
    · rw [if_pos hk]
      have := minD_le_lev a b (t + 1) ht
      omega
    · rw [if_neg hk]
      exact ih (t + 1) hxs ht

lemma boundedLev_eq_min (a b : List ℕ) (k : ℕ) :
    boundedLev a b k = min (baselineLevenshteinDistance a b) k := by
  unfold boundedLev
  rw [initRow_one_eq_rowSpec a b]
  exact boundedGo_spec a b k a 0 (by simp) (by omega)

/-! Adjacent cells of the classic dynamic program differ by at most one. -/

lemma distanceMatrix_succ_left_le (a b : List ℕ) (i j : ℕ) :
    distanceMatrix a b (i + 1) j ≤ distanceMatrix a b i j + 1 := by
  cases j with
  | zero => rw [distanceMatrix_zero_right, distanceMatrix_zero_right]
  | succ j =>
    rw [distanceMatrix_succ_succ]
    exact le_trans (min_le_left _ _) (le_refl _)

lemma distanceMatrix_succ_right_le (a b : List ℕ) (i j : ℕ) :
    distanceMatrix a b i (j + 1) ≤ distanceMatrix a b i j + 1 := by
  cases i with
  | zero => rw [distanceMatrix_zero_left, distanceMatrix_zero_left]
  | succ i =>
    rw [distanceMatrix_succ_succ]
    exact le_trans (min_le_right _ _) (le_trans (min_le_left _ _) (le_refl _))

/-! The Needleman-Wunsch score with unit penalties negates the edit
distance, cell by cell. -/

lemma gotohNW_neg_lev (a b : List ℕ) :
    ∀ (N i j : ℕ), i + j ≤ N →
      ((gotohNW subUnit (-1) (-1) a b i j).1 = -(distanceMatrix a b i j : ℤ)) ∧
      (∀ i', i = i' + 1 →
        (gotohNW subUnit (-1) (-1) a b i j).2.1 = -(distanceMatrix a b i' j : ℤ) - 1) ∧
      (∀ j', j = j' + 1 →
        (gotohNW subUnit (-1) (-1) a b i j).2.2 = -(distanceMatrix a b i j' : ℤ) - 1) := by
  intro N
  induction N with
  | zero =>
    intro i j h
    have hi : i = 0 := by omega
    have hj : j = 0 := by omega
    subst hi; subst hj
    refine ⟨?_, fun i' h => absurd h (by omega), fun j' h => absurd h (by omega)⟩
    rw [gotohNW, distanceMatrix_zero_left]
    norm_num
  | succ N ih =>
    intro i j hN
    rcases i with _ | i
    · rcases j with _ | j
      · refine ⟨?_, fun i' h => absurd h (by omega), fun j' h => absurd h (by omega)⟩
        rw [gotohNW, distanceMatrix_zero_left]
        norm_num
      · refine ⟨?_, fun i' h => absurd h (by omega), ?_⟩
        · rw [gotohNW, distanceMatrix_zero_left]
          push_cast
          ring
        · intro j' h
          have hj : j' = j := by omega
          subst hj
          rw [gotohNW, distanceMatrix_zero_left]
          push_cast
          ring
    · rcases j with _ | j
      · refine ⟨?_, ?_, fun j' h => absurd h (by omega)⟩
        · rw [gotohNW, distanceMatrix_zero_right]
          push_cast
          ring
        · intro i' h
          have hi : i' = i := by omega
          subst hi
          rw [gotohNW, distanceMatrix_zero_right]
          push_cast
          ring
      · have ihd := ih i j (by omega)
        have ihu := ih i (j + 1) (by omega)
        have ihl := ih (i + 1) j (by omega)
        have hBraw :
            (if i = 0 then (gotohNW subUnit (-1) (-1) a b i (j + 1)).1 + (-1)
              else max ((gotohNW subUnit (-1) (-1) a b i (j + 1)).1 + (-1))
                ((gotohNW subUnit (-1) (-1) a b i (j + 1)).2.1 + (-1)))
            = -(distanceMatrix a b i (j + 1) : ℤ) - 1 := by
          rcases Nat.eq_zero_or_pos i with hi | hi
          · subst hi
            rw [if_pos rfl, ihu.1]
            ring
          · obtain ⟨k, rfl⟩ : ∃ k, i = k + 1 := ⟨i - 1, by omega⟩
            rw [if_neg (by omega), ihu.1, ihu.2.1 k rfl]
            have hadj := distanceMatrix_succ_left_le a b k (j + 1)
            omega
        have hCraw :
            (if j = 0 then (gotohNW subUnit (-1) (-1) a b (i + 1) j).1 + (-1)
              else max ((gotohNW subUnit (-1) (-1) a b (i + 1) j).1 + (-1))
                ((gotohNW subUnit (-1) (-1) a b (i + 1) j).2.2 + (-1)))
            = -(distanceMatrix a b (i + 1) j : ℤ) - 1 := by
          rcases Nat.eq_zero_or_pos j with hj | hj
          · subst hj
            rw [if_pos rfl, ihl.1]
            ring
          · obtain ⟨k, rfl⟩ : ∃ k, j = k + 1 := ⟨j - 1, by omega⟩
            rw [if_neg (by omega), ihl.1, ihl.2.2 k rfl]
            have hadj := distanceMatrix_succ_right_le a b (i + 1) k
            omega
        refine ⟨?_, ?_, ?_⟩
        · rw [gotohNW]
          simp only
          rw [hBraw, hCraw, ihd.1, distanceMatrix_succ_succ]
          unfold subUnit
          by_cases hxy : a.getD i 0 = b.getD j 0
          · rw [if_pos hxy, if_pos hxy]
            push_cast
            omega
          · rw [if_neg hxy, if_neg hxy]
            push_cast
            omega
        · intro i' h
          have hi : i' = i := by omega
          subst hi
          rw [gotohNW]
          simp only
          rw [hBraw]
        · intro j' h
          have hj : j' = j := by omega
          subst hj
          rw [gotohNW]
          simp only
          rw [hCraw]

lemma nwScore_eq_neg_lev (a b : List ℕ) :
    nwScore subUnit (-1) (-1) a b = -(baselineLevenshteinDistance a b : ℤ) :=
  (gotohNW_neg_lev a b (a.length + b.length) a.length b.length (le_refl _)).1

/-! On purely-ASCII input the UTF-8 encoding is the identity. -/

lemma utf8EncodeChar_ascii {c : ℕ} (h : c < 128) : utf8EncodeChar c = [c] := by
  unfold utf8EncodeChar
  rw [if_pos h]

lemma utf8Encode_ascii {s : List ℕ} (h : ∀ c ∈ s, c < 128) : utf8Encode s = s := by
  induction s with
  | nil => rfl
  | cons c cs ih =>
    unfold utf8Encode
    rw [List.map_cons, List.flatten_cons,
      utf8EncodeChar_ascii (h c (List.mem_cons_self c cs))]
    have := ih (fun x hx => h x (List.mem_cons_of_mem c hx))
    unfold utf8Encode at this
    rw [this]
    rfl

/-! Scheduler determinism: every device scope computes the serial results. -/

lemma serialCompute_eq_range (f : List ℕ → List ℕ → ℤ) :
    ∀ xs ys : List (List ℕ),
      serialCompute f xs ys = (List.range (min xs.length ys.length)).map (pairResult f xs ys) := by
  intro xs
  induction xs with
  | nil => intro ys; simp [serialCompute]
  | cons x xs ih =>
    intro ys
    cases ys with
    | nil => simp [serialCompute]
    | cons y ys =>
      unfold serialCompute
      rw [List.zip_cons_cons, List.map_cons]
      have hmin : min (x :: xs).length (y :: ys).length = min xs.length ys.length + 1 := by
        simp [Nat.succ_min_succ]
      rw [hmin, List.range_succ_eq_map, List.map_cons, List.map_map]
      congr 1
      show serialCompute f xs ys
        = List.map (pairResult f (x :: xs) (y :: ys) ∘ Nat.succ)
            (List.range (min xs.length ys.length))
      rw [ih ys]
      apply List.map_congr_left
      intro j _
      rfl

lemma foldl_set_length (v : ℕ → ℤ) :
    ∀ (order : List ℕ) (acc : List ℤ),
      (order.foldl (fun l i => l.set i (v i)) acc).length = acc.length := by
  intro order
  induction order with
  | nil => intro acc; rfl
  | cons i rest ih =>
    intro acc
    rw [List.foldl_cons, ih, List.length_set]

lemma foldl_set_getD (v : ℕ → ℤ) :
    ∀ (order : List ℕ) (acc : List ℤ) (j : ℕ), j < acc.length →
      (order.foldl (fun l i => l.set i (v i)) acc).getD j 0
        = if j ∈ order then v j else acc.getD j 0 := by
  intro order
  induction order with
  | nil => intro acc j hj; simp
  | cons i rest ih =>
    intro acc j hj
    rw [List.foldl_cons, ih (acc.set i (v i)) j (by rw [List.length_set]; exact hj)]
    by_cases hr : j ∈ rest
    · rw [if_pos hr, if_pos (List.mem_cons_of_mem i hr)]
    · rw [if_neg hr]
      by_cases hij : j = i
      · subst hij
        rw [if_pos (List.mem_cons_self j rest)]
        rw [List.getD_eq_getElem _ _ (by rw [List.length_set]; exact hj)]
        rw [List.getElem_set_self]
      · have : j ∉ (i :: rest) := by
          intro hmem
          rcases List.mem_cons.mp hmem with h | h
          · exact hij h
          · exact hr h
        rw [if_neg this]
        rw [List.getD_eq_getElem _ _ (by rw [List.length_set]; exact hj),
          List.getD_eq_getElem _ _ hj]
        exact List.getElem_set_ne (fun h => hij h.symm) _

lemma list_ext_getD (l₁ l₂ : List ℤ) (hlen : l₁.length = l₂.length)
    (h : ∀ j, j < l₁.length → l₁.getD j 0 = l₂.getD j 0) : l₁ = l₂ := by
  induction l₁ generalizing l₂ with
  | nil =>
    cases l₂ with
    | nil => rfl
    | cons y ys => exact absurd hlen (by simp)
  | cons x xs ih =>
    cases l₂ with
    | nil => exact absurd hlen (by simp)
    | cons y ys =>
      have hx : x = y := h 0 (by simp)
      have hxs : xs = ys := by
        apply ih ys (by simpa using hlen)
        intro j hj
        exact h (j + 1) (by simpa using hj)
      rw [hx, hxs]

lemma getD_map_range (g : ℕ → ℤ) (n j : ℕ) (hj : j < n) :
    ((List.range n).map g).getD j 0 = g j := by
  rw [List.getD_eq_getElem _ _ (by simpa using hj)]
  simp

lemma scatterWrite_eq (f : List ℕ → List ℕ → ℤ) (xs ys : List (List ℕ))
    (order : List ℕ)
    (hcov : ∀ i, i < min xs.length ys.length → i ∈ order) :
    scatterWrite f xs ys order
      = (List.range (min xs.length ys.length)).map (pairResult f xs ys) := by
  apply list_ext_getD
  · rw [show scatterWrite f xs ys order
        = order.foldl (fun l i => l.set i (pairResult f xs ys i))
            (List.replicate (min xs.length ys.length) 0) from rfl]
    rw [foldl_set_length, List.length_replicate, List.length_map, List.length_range]
  · intro j hj
    have hjlen : j < min xs.length ys.length := by
      rw [show scatterWrite f xs ys order
          = order.foldl (fun l i => l.set i (pairResult f xs ys i))
              (List.replicate (min xs.length ys.length) 0) from rfl] at hj
      rw [foldl_set_length, List.length_replicate] at hj
      exact hj
    rw [show scatterWrite f xs ys order
        = order.foldl (fun l i => l.set i (pairResult f xs ys i))
            (List.replicate (min xs.length ys.length) 0) from rfl]
    rw [foldl_set_getD _ _ _ _ (by rw [List.length_replicate]; exact hjlen)]
    rw [if_pos (hcov j hjlen), getD_map_range _ _ _ hjlen]

lemma interleaveOrder_cover (w n : ℕ) (hw : 1 ≤ w) :
    ∀ i, i < n → i ∈ interleaveOrder w n := by
  intro i hi
  unfold interleaveOrder
  apply List.mem_flatten.mpr
  refine ⟨(List.range n).filter (fun x => x % w == i % w), ?_, ?_⟩
  · exact List.mem_map_of_mem _ (List.mem_range.mpr (Nat.mod_lt i hw))
  · exact List.mem_filter.mpr ⟨List.mem_range.mpr hi, by simp⟩

lemma multiCompute_eq_serial (f : List ℕ → List ℕ → ℤ) (xs ys : List (List ℕ))
    (w : ℕ) (hw : 1 ≤ w) :
    multiCompute f xs ys w = serialCompute f xs ys := by
  rw [serialCompute_eq_range]
  exact scatterWrite_eq f xs ys _ (interleaveOrder_cover w _ hw)

lemma gpuCompute_eq_serial (f : List ℕ → List ℕ → ℤ) (xs ys : List (List ℕ)) :
    gpuCompute f xs ys = serialCompute f xs ys := by
  rw [serialCompute_eq_range]
  rfl

/-! Small helpers for the empty-sequence and bounded claims. -/

lemma rowLevG_nil_left (g : ℕ) (s : List ℕ) : rowLevG g [] s = s.length * g := by
  unfold rowLevG
  rw [List.foldl_nil]
  unfold initRow
  rw [getLastD_map_range]

lemma affineDist_nil_nil (o e m : ℕ) : affineDist o e m [] [] = 0 := by
  simp [affineDist, gotohDist]

lemma lev_abababab :
    baselineLevenshteinDistance [97, 98, 97, 98, 97, 98, 97, 98]
      [97, 97, 97, 97, 97, 97, 97, 97] = 4 := by
  rw [← rowLevG_one_eq]
  decide

/-! Claim theorems. -/

/-- Claim C1 (amended): once the true Levenshtein distance of `(a, b)`
exceeds the bound `k`, the bounded computation returns the bound `k` itself
(not the `k + 1` sentinel), and the returned value never exceeds `k`. -/
theorem bounded_distance_exceeding_returns_bound (a b : List ℕ) (k : ℕ) :
    (k < baselineLevenshteinDistance a b → boundedLev a b k = k) ∧
    boundedLev a b k ≤ k := by
  have h := boundedLev_eq_min a b k
  exact ⟨fun hk => by omega, by omega⟩

/-- Claim C1 witness: the pair pinned by `test_unit_globals` with bound 2. -/
theorem bounded_distance_exceeding_returns_bound_witness :
    2 < baselineLevenshteinDistance [97, 98, 97, 98, 97, 98, 97, 98]
        [97, 97, 97, 97, 97, 97, 97, 97] ∧
    boundedLev [97, 98, 97, 98, 97, 98, 97, 98]
        [97, 97, 97, 97, 97, 97, 97, 97] 2 = 2 ∧
    boundedLev [97, 98, 97, 98, 97, 98, 97, 98]
        [97, 97, 97, 97, 97, 97, 97, 97] 2 ≤ 2 := by
  have hgt : 2 < baselineLevenshteinDistance [97, 98, 97, 98, 97, 98, 97, 98]
      [97, 97, 97, 97, 97, 97, 97, 97] := by rw [lev_abababab]; omega
  exact ⟨hgt,
    (bounded_distance_exceeding_returns_bound _ _ 2).1 hgt,
    (bounded_distance_exceeding_returns_bound _ _ 2).2⟩

/-- Claim C1 counterexample: for the pair `("abababab", "aaaaaaaa")` of true
distance 4 and bound 2, the bounded edit distance does not return the claimed
sentinel `2 + 1` (as pinned by `test_unit_globals` in `scripts/test.py`,
which asserts the value `2`). -/
theorem bounded_distance_sentinel_counterexample :
    2 < baselineLevenshteinDistance [97, 98, 97, 98, 97, 98, 97, 98]
        [97, 97, 97, 97, 97, 97, 97, 97] ∧
    boundedLev [97, 98, 97, 98, 97, 98, 97, 98]
        [97, 97, 97, 97, 97, 97, 97, 97] 2 ≠ 2 + 1 := by
  refine ⟨by rw [lev_abababab]; omega, by decide⟩

/-- Claim C2: the row-wise engine kernel under the uniform unit-cost model
returns exactly the value of the classic `(len a + 1) × (len b + 1)` dynamic
program of the source baseline. -/
theorem engine_matches_classic_dp (a b : List ℕ) :
    rowLevG 1 a b = baselineLevenshteinDistance a b :=
  rowLevG_one_eq a b

/-- Claim C3: the Needleman-Wunsch global-alignment score with the test
suite's substitution matrix (0 on the diagonal, -1 off it) and gap open =
gap extend = -1 equals the negated unit-cost Levenshtein distance. -/
theorem needleman_wunsch_neg_levenshtein (a b : List ℕ) :
    nwScore subUnit (-1) (-1) a b = -(baselineLevenshteinDistance a b : ℤ) :=
  nwScore_eq_neg_lev a b

/-- Claim C4: for a fixed kernel (cost model and recurrence) and fixed input
batches, the result array is identical whichever device scope executes the
batch: serial, multi-core with any worker count, or GPU. -/
theorem device_scope_determinism (f : List ℕ → List ℕ → ℤ)
    (xs ys : List (List ℕ)) (w d : ℕ) (hw : 1 ≤ w) :
    scopedCompute (.multiCore w) f xs ys = scopedCompute .serial f xs ys ∧
    scopedCompute (.gpu d) f xs ys = scopedCompute .serial f xs ys :=
  ⟨multiCompute_eq_serial f xs ys w hw, gpuCompute_eq_serial f xs ys⟩

/-- Claim C4 witness: a concrete two-pair batch on two workers and one GPU. -/
theorem device_scope_determinism_witness :
    1 ≤ 2 ∧
    scopedCompute (.multiCore 2) (fun a b => (rowLevG 1 a b : ℤ))
        [[97], [98, 99]] [[97, 98], [99]]
      = scopedCompute .serial (fun a b => (rowLevG 1 a b : ℤ))
        [[97], [98, 99]] [[97, 98], [99]] ∧
    scopedCompute (.gpu 0) (fun a b => (rowLevG 1 a b : ℤ))
        [[97], [98, 99]] [[97, 98], [99]]
      = scopedCompute .serial (fun a b => (rowLevG 1 a b : ℤ))
        [[97], [98, 99]] [[97, 98], [99]] := by
  have h := device_scope_determinism (fun a b => (rowLevG 1 a b : ℤ))
    [[97], [98, 99]] [[97, 98], [99]] 2 0 (by omega)
  exact ⟨by omega, h.1, h.2⟩

/-- Claim C5: on purely-ASCII inputs the codepoint-oriented engines agree
with the byte-oriented engines, for every uniform gap cost and every affine
cost model. -/
theorem utf8_engine_agrees_on_ascii (g o e m : ℕ) (a b : List ℕ)
    (ha : ∀ c ∈ a, c < 128) (hb : ∀ c ∈ b, c < 128) :
    rowLevG g (utf8Encode a) (utf8Encode b) = rowLevG g a b ∧
    affineDist o e m (utf8Encode a) (utf8Encode b) = affineDist o e m a b := by
  rw [utf8Encode_ascii ha, utf8Encode_ascii hb]
  exact ⟨rfl, rfl⟩

/-- Claim C5 witness: concrete ASCII byte strings. -/
theorem utf8_engine_agrees_on_ascii_witness :
    (∀ c ∈ ([104, 101, 108] : List ℕ), c < 128) ∧
    (∀ c ∈ ([104, 108] : List ℕ), c < 128) ∧
    rowLevG 1 (utf8Encode [104, 101, 108]) (utf8Encode [104, 108])
      = rowLevG 1 [104, 101, 108] [104, 108] ∧
    affineDist 3 2 4 (utf8Encode [104, 101, 108]) (utf8Encode [104, 108])
      = affineDist 3 2 4 [104, 101, 108] [104, 108] := by
  have h := utf8_engine_agrees_on_ascii 1 3 2 4 [104, 101, 108] [104, 108]
    (by decide) (by decide)
  exact ⟨by decide, by decide, h.1, h.2⟩

/-- Claim C6: the distance between empty sequences is 0, and the distance
between the empty sequence and a nonempty `s` is one gap of length
`len s`: `len s * gap_cost` under the uniform model and
`open + (len s - 1) * extend` under the affine-gap model. -/
theorem empty_sequence_gap_costs (g o e m : ℕ) (s : List ℕ) (hs : s ≠ []) :
    rowLevG g [] [] = 0 ∧ affineDist o e m [] [] = 0 ∧
    rowLevG g [] s = s.length * g ∧
    affineDist o e m [] s = o + (s.length - 1) * e := by
  refine ⟨?_, affineDist_nil_nil o e m, rowLevG_nil_left g s, ?_⟩
  · rw [rowLevG_nil_left]
    simp
  · cases s with
    | nil => exact absurd rfl hs
    | cons y ys => simp [affineDist, gotohDist]

/-- Claim C6 witness: concrete gap costs and a three-element sequence. -/
theorem empty_sequence_gap_costs_witness :
    ([97, 98, 99] : List ℕ) ≠ [] ∧
    rowLevG 5 [] [] = 0 ∧ affineDist 3 2 4 [] [] = 0 ∧
    rowLevG 5 [] [97, 98, 99] = ([97, 98, 99] : List ℕ).length * 5 ∧
    affineDist 3 2 4 [] [97, 98, 99]
      = 3 + (([97, 98, 99] : List ℕ).length - 1) * 2 := by
  have h := empty_sequence_gap_costs 5 3 2 4 [97, 98, 99] (by decide)
  exact ⟨by decide, h.1, h.2.1, h.2.2.1, h.2.2.2⟩

/-- Claim C7: a compute call on batches of different element counts fails
with an error, and no result array is produced. -/
theorem mismatched_batch_lengths_error (f : List ℕ → List ℕ → ℤ)
    (xs ys : List (List ℕ)) (h : xs.length ≠ ys.length) :
    engineCompute f xs ys = Except.error "mismatched batch lengths" ∧
    ∀ r : List ℤ, engineCompute f xs ys ≠ Except.ok r := by
  have he : engineCompute f xs ys = Except.error "mismatched batch lengths" := by
    unfold engineCompute
    rw [if_neg h]
  exact ⟨he, fun r hr => by rw [he] at hr; cases hr⟩

/-- Claim C7 witness: batches of sizes 2 and 1. -/
theorem mismatched_batch_lengths_error_witness :
    ([[97], [98]] : List (List ℕ)).length ≠ ([[97]] : List (List ℕ)).length ∧
    engineCompute (fun a b => (rowLevG 1 a b : ℤ)) [[97], [98]] [[97]]
      = Except.error "mismatched batch lengths" := by
  refine ⟨by decide, ?_⟩
  exact (mismatched_batch_lengths_error (fun a b => (rowLevG 1 a b : ℤ))
    [[97], [98]] [[97]] (by decide)).1

/-- Claim C8: GPU device-scope construction on a system without GPU support
fails immediately at construction; serial and multi-core construction always
succeed, with worker count 0 resolved to all available cores and worker
count 1 normalized to the serial scope; and computation with any
successfully constructed scope never fails and produces exactly the serial
results (so a GPU failure is never deferred to a compute call). -/
theorem device_scope_construction (sys : SystemInfo) (d w : ℕ)
    (f : List ℕ → List ℕ → ℤ) (xs ys : List (List ℕ)) (req : ScopeRequest)
    (scope : DeviceScope) :
    (sys.gpuCount = 0 →
      newDeviceScope sys (.gpu d) = Except.error "gpu device unavailable") ∧
    newDeviceScope sys .serial = Except.ok .serial ∧
    (newDeviceScope sys (.multiCore w)).isOk = true ∧
    newDeviceScope sys (.multiCore 0) = Except.ok (.multiCore sys.numCores) ∧
    newDeviceScope sys (.multiCore 1) = Except.ok .serial ∧
    (1 ≤ sys.numCores → newDeviceScope sys req = Except.ok scope →
      scopedCompute scope f xs ys = serialCompute f xs ys) := by
  refine ⟨?_, rfl, ?_, rfl, rfl, ?_⟩
  · intro h
    rw [show newDeviceScope sys (.gpu d)
        = if d < sys.gpuCount then Except.ok (.gpu d)
          else Except.error "gpu device unavailable" from rfl,
      if_neg (by omega)]
  · match w with
    | 0 => rfl
    | 1 => rfl
    | w + 2 => rfl
  · intro hc hok
    match req with
    | .serial =>
      obtain rfl : DeviceScope.serial = scope := by
        cases hok
        rfl
      rfl
    | .multiCore w' =>
      match w' with
      | 0 =>
        obtain rfl : DeviceScope.multiCore sys.numCores = scope := by
          cases hok
          rfl
        exact multiCompute_eq_serial f xs ys sys.numCores hc
      | 1 =>
        obtain rfl : DeviceScope.serial = scope := by
          cases hok
          rfl
        rfl
      | w' + 2 =>
        obtain rfl : DeviceScope.multiCore (w' + 2) = scope := by
          cases hok
          rfl
        exact multiCompute_eq_serial f xs ys (w' + 2) (by omega)
    | .gpu d' =>
      by_cases hd : d' < sys.gpuCount
      · rw [show newDeviceScope sys (.gpu d')
            = if d' < sys.gpuCount then Except.ok (.gpu d')
              else Except.error "gpu device unavailable" from rfl,
          if_pos hd] at hok
        obtain rfl : DeviceScope.gpu d' = scope := by
          cases hok
          rfl
        exact gpuCompute_eq_serial f xs ys
      · rw [show newDeviceScope sys (.gpu d')
            = if d' < sys.gpuCount then Except.ok (.gpu d')
              else Except.error "gpu device unavailable" from rfl,
          if_neg hd] at hok
        cases hok

/-- Claim C8 witness: a 4-core system without GPUs. -/
theorem device_scope_construction_witness :
    (SystemInfo.mk 4 0).gpuCount = 0 ∧
    newDeviceScope ⟨4, 0⟩ (.gpu 0) = Except.error "gpu device unavailable" ∧
    newDeviceScope ⟨4, 0⟩ .serial = Except.ok .serial ∧
    (newDeviceScope ⟨4, 0⟩ (.multiCore 2)).isOk = true ∧
    newDeviceScope ⟨4, 0⟩ (.multiCore 0) = Except.ok (.multiCore 4) ∧
    newDeviceScope ⟨4, 0⟩ (.multiCore 1) = Except.ok .serial ∧
    1 ≤ (SystemInfo.mk 4 0).numCores ∧
    newDeviceScope ⟨4, 0⟩ (.multiCore 0) = Except.ok (.multiCore 4) ∧
    scopedCompute (.multiCore 4) (fun a b => (rowLevG 1 a b : ℤ)) [[97]] [[98]]
      = serialCompute (fun a b => (rowLevG 1 a b : ℤ)) [[97]] [[98]] := by
  have h := device_scope_construction ⟨4, 0⟩ 0 2
    (fun a b => (rowLevG 1 a b : ℤ)) [[97]] [[98]]
    (.multiCore 0) (.multiCore 4)
  exact ⟨rfl, h.1 rfl, h.2.1, h.2.2.1, h.2.2.2.1, h.2.2.2.2.1,
    by decide, h.2.2.2.1, h.2.2.2.2.2 (by decide) rfl⟩

/-- Claim C9 counterexample: the distance engine is successfully constructed
with the positive gap costs `open=3, extend=2, mismatch=4` used by
`test_levenshtein_distances_with_custom_gaps`, and computes the distances
that test asserts, instead of failing with a construction error as the
claim states. -/
theorem positive_gap_costs_counterexample :
    (mkLevenshteinDistances 3 2 4).isOk = true ∧
    runLevenshteinDistances ⟨3, 2, 4⟩ [] [97, 98, 99] = 3 + 2 * 2 := by
  exact ⟨rfl, by simp [runLevenshteinDistances, affineDist, gotohDist]⟩

/-- Claim C9 (amended): distance-engine construction accepts every
non-negative integer assignment of open/extend/mismatch — the parameters
are costs and no sign-convention check rejects positive values — and the
constructed engine computes affine-gap distances with them. -/
theorem positive_gap_costs_accepted (o e m : ℕ) :
    mkLevenshteinDistances o e m = Except.ok ⟨o, e, m⟩ ∧
    runLevenshteinDistances ⟨o, e, m⟩ [] [97, 98, 99] = o + 2 * e := by
  exact ⟨rfl, by simp [runLevenshteinDistances, affineDist, gotohDist]⟩

/-- Claim C10: for every pair and bound, the bounded single-pair edit
distance returns the minimum of the true Levenshtein distance and the
bound. -/
theorem bounded_distance_eq_min (a b : List ℕ) (k : ℕ) :
    boundedLev a b k = min (baselineLevenshteinDistance a b) k :=
  boundedLev_eq_min a b k
